import Mathlib

set_option maxHeartbeats 1000000
set_option linter.unusedVariables false

/-!
Shallow embedding of the core of `cupyx/scipy/fftpack/fft.py`:

* the real-spectrum codec `rfft` / `irfft` (packing between the engine's
  half-complex spectrum and the SciPy packed real layout), and
* the plan builder `get_fft_plan` (shape/axes validation and full output
  shape computation).

An N-dimensional array with a chosen transform axis is a family of
independent one-dimensional lines along that axis; every slice operation of
the source restricts only the transform axis, so the codec is modelled on a
single such line (`List ℚ`).  Floating-point reals are modelled by exact
rationals: the codec only moves values, it never computes with them.
Python slice semantics (negative indices, clamping, step) are modelled
exactly, over `ℤ` indices as in Python.  The external FFT engine is an
opaque parameter; the parts of the repository that are not under `src/`
(`cupy.fft.fft._fft` and `_get_cufft_plan_nd`) are modelled from the spec
where a claim depends on them.
-/

deriving instance DecidableEq for Except

/-- Complex scalar of the codec, over exact rationals standing for the
floating-point reals of the source. -/
structure CC where
  re : ℚ
  im : ℚ
  deriving DecidableEq, Repr

instance : Inhabited CC := ⟨⟨0, 0⟩⟩

/-- The zero complex value, the fill used by `cupy.zeros`. -/
def cc0 : CC := ⟨0, 0⟩

/-- Errors that can arise in the codec layer (`rfft` / `irfft`) or at the
engine boundary.  `InvalidLength` is the spec's name for the rejection of a
non-positive transform length; `ShapeMismatch` is a slice-assignment
broadcast failure; `NegativeDim` is an allocation with a negative shape
entry. -/
inductive CodecErr where
  | InvalidLength
  | ShapeMismatch
  | NegativeDim
  deriving DecidableEq, Repr

/-- Update one position of a list in place (out-of-range indices leave the
list unchanged, matching a write through a valid Python slice, which never
goes out of range). -/
def listUpd {α : Type} (l : List α) (i : ℕ) (f : α → α) : List α :=
  match l, i with
  | [], _ => []
  | a :: t, 0 => f a :: t
  | a :: t, j + 1 => a :: listUpd t j f

/-- Apply a sequence of positional updates `(index, value)` left to right,
combining the old element with the new value through `upd` (plain
assignment, `.real =`, or `.imag =`). -/
def applyUpds {α β : Type} (upd : α → β → α) (l : List α) (ps : List (ℕ × β)) : List α :=
  ps.foldl (fun acc p => listUpd acc p.1 (fun c => upd c p.2)) l

/-- Elementwise slice assignment `l[idxs] = vals` with numpy broadcast
semantics along the axis: the value list must have the same length as the
index list, or length one (which broadcasts); anything else is a broadcast
error. -/
def sliceAssignWith {α β : Type} (upd : α → β → α) (l : List α) (idxs : List ℕ)
    (vals : List β) : Except CodecErr (List α) :=
  if vals.length = idxs.length then Except.ok (applyUpds upd l (idxs.zip vals))
  else
    match vals with
    | [v] => Except.ok (applyUpds upd l (idxs.map (fun i => (i, v))))
    | _ => Except.error CodecErr.ShapeMismatch

/-- Python slice-boundary normalization for a sequence of length `L`:
negative indices count from the end, then the result is clamped to
`[0, L]`. -/
def pyBound (L : ℕ) (i : ℤ) : ℕ :=
  (min (L : ℤ) (max 0 (if i < 0 then i + L else i))).toNat

/-- The positions selected by the Python slice `start:stop:step` (a `stop`
of `none` is Python's `None`) on a sequence of length `L`, in order. -/
def pySliceIdxs (L : ℕ) (start : ℤ) (stop : Option ℤ) (step : ℕ) : List ℕ :=
  let a := pyBound L start
  let b := match stop with
    | none => L
    | some s => pyBound L s
  (List.range ((b - a + step - 1) / step)).map (fun k => a + step * k)

/-- The elements extracted by the Python slice `l[start:stop:step]`. -/
def pySliceList {α : Type} (dflt : α) (l : List α) (start : ℤ) (stop : Option ℤ)
    (step : ℕ) : List α :=
  (pySliceIdxs l.length start stop step).map (fun i => l.getD i dflt)

/-- Plain slice assignment `z[s] = v` on a real array. -/
def updVal (c : ℚ) (v : ℚ) : ℚ := v

/-- Slice assignment into the real parts, `z[s].real = v`. -/
def updRe (c : CC) (v : ℚ) : CC := ⟨v, c.im⟩

/-- Slice assignment into the imaginary parts, `z[s].imag = v`. -/
def updIm (c : CC) (v : ℚ) : CC := ⟨c.re, v⟩

/-- The packing step of `rfft` (src lines 262-283): given the half-complex
spectrum `f` returned by the engine and the requested length `n`, allocate
`z = cupy.empty` of length `n` along the axis (its unspecified initial
contents are modelled by `junk`) and perform the three slice assignments
`z[0:1] = f[0:1].real`, `z[1::2] = f[1:].real`, and
`z[2::2] = f[1:n-f.shape[axis]+1].imag`. -/
def rfftPack (f : List CC) (n : ℤ) (junk : ℚ) : Except CodecErr (List ℚ) :=
  if n < 0 then Except.error CodecErr.NegativeDim
  else
    match sliceAssignWith updVal (List.replicate n.toNat junk)
        (pySliceIdxs (List.replicate n.toNat junk).length 0 (some 1) 1)
        ((pySliceList cc0 f 0 (some 1) 1).map CC.re) with
    | Except.error err => Except.error err
    | Except.ok z1 =>
      match sliceAssignWith updVal z1 (pySliceIdxs z1.length 1 none 2)
          ((pySliceList cc0 f 1 none 1).map CC.re) with
      | Except.error err => Except.error err
      | Except.ok z2 =>
        sliceAssignWith updVal z2 (pySliceIdxs z2.length 2 none 2)
          ((pySliceList cc0 f 1 (some (n - (f.length : ℤ) + 1)) 1).map CC.im)

/-- One line of `rfft` (src lines 235-283) along the transform axis: call
the engine's forward real-to-complex transform with the requested length
`n`, then pack its half-complex output into the SciPy real layout. -/
def rfft1 (e : List ℚ → ℤ → Except CodecErr (List CC)) (junk : ℚ) (x : List ℚ)
    (n : ℤ) : Except CodecErr (List ℚ) :=
  match e x n with
  | Except.error err => Except.error err
  | Except.ok f => rfftPack f n junk

/-- The unpacking step of `irfft` (src lines 303-327): with
`m = min(n, x.shape[axis])`, allocate the zero-filled half-complex buffer
`z = cupy.zeros` of length `n//2 + 1` along the axis and perform the three
slice assignments `z[0:1].real = x[0:1]`,
`z[1:m//2+1].real = x[1:m:2]`, and `z[1:(m+1)//2].imag = x[2:m:2]`. -/
def irfftUnpack (x : List ℚ) (n : ℤ) : Except CodecErr (List CC) :=
  if n / 2 + 1 < 0 then Except.error CodecErr.NegativeDim
  else
    match sliceAssignWith updRe (List.replicate (n / 2 + 1).toNat cc0)
        (pySliceIdxs (List.replicate (n / 2 + 1).toNat cc0).length 0 (some 1) 1)
        (pySliceList 0 x 0 (some 1) 1) with
    | Except.error err => Except.error err
    | Except.ok z1 =>
      match sliceAssignWith updRe z1
          (pySliceIdxs z1.length 1 (some (min n (x.length : ℤ) / 2 + 1)) 1)
          (pySliceList 0 x 1 (some (min n (x.length : ℤ))) 2) with
      | Except.error err => Except.error err
      | Except.ok z2 =>
        sliceAssignWith updIm z2
          (pySliceIdxs z2.length 1 (some ((min n (x.length : ℤ) + 1) / 2)) 1)
          (pySliceList 0 x 2 (some (min n (x.length : ℤ))) 2)

/-- One line of `irfft` (src lines 286-330) along the transform axis: build
the half-complex intermediate from the packed input, then call the engine's
inverse complex-to-real transform requesting output length `n`. -/
def irfft1 (e : List CC → ℤ → Except CodecErr (List ℚ)) (x : List ℚ)
    (n : ℤ) : Except CodecErr (List ℚ) :=
  match irfftUnpack x n with
  | Except.error err => Except.error err
  | Except.ok z => e z n

/-- Modelled from the spec: the shared engine entry `_fft` of
`cupy/fft/fft.py` is part of this repository but not under `src/`; per the
spec's failure modes, a requested length `n <= 0` fails with
`InvalidLength` there, before the opaque transform `core` runs. -/
def fftEntry {α β : Type} (core : α → ℤ → β) (x : α) (n : ℤ) : Except CodecErr β :=
  if n ≤ 0 then Except.error CodecErr.InvalidLength else Except.ok (core x n)

/-- Truncate or zero-pad a line to length `n`: the engine's implicit
adjustment of the input to the requested transform length. -/
def fitLen (x : List ℚ) (n : ℕ) : List ℚ :=
  x.take n ++ List.replicate (n - x.length) 0

/-- A concrete engine forward transform used to witness engine-dependent
statements: it returns the half-complex buffer whose packed layout is the
(truncated or padded) input itself.  It satisfies the structural engine
contract (output length `n//2+1`, zero imaginary parts at the DC bin and,
for even `n`, at the Nyquist bin) and, paired with `toyC2R`, the engine
inverse contract. -/
def toyR2C (x : List ℚ) (n : ℤ) : Except CodecErr (List CC) :=
  irfftUnpack (fitLen x n.toNat) n

/-- The concrete engine inverse transform paired with `toyR2C`. -/
def toyC2R (z : List CC) (n : ℤ) : Except CodecErr (List ℚ) :=
  rfftPack z n 0

/-- Errors of the plan builder `get_fft_plan`, named as in the spec's
taxonomy (the source raises `NotImplementedError` / `ValueError` /
`IndexError` with distinguishing messages). -/
inductive PlanErr where
  | UnsupportedTransformKind
  | NonContiguousInput
  | ShapeAxesMismatch
  | TooManyAxes
  | UnsupportedAxisLayout
  | AxisIndexError
  deriving DecidableEq, Repr

/-- Memory layout tag of a contiguous array. -/
inductive MemOrder where
  | rowMajor
  | colMajor
  deriving DecidableEq, Repr

/-- The cuFFT transform kinds that `_convert_fft_type` can produce. -/
inductive CufftType where
  | C2C
  | Z2Z
  | R2C
  | C2R
  | D2Z
  | Z2D
  deriving DecidableEq, Repr

/-- Array dtypes relevant to the codec's dtype branch. -/
inductive Dtype where
  | float16
  | float32
  | float64
  | complex64
  | complex128
  | int8
  | int16
  | int32
  | int64
  | uint8
  | boolean
  deriving DecidableEq, Repr

/-- The dtype selection of `irfft` for its half-complex intermediate `z`
(src lines 309-312): `complex64` when the input dtype is `float16` or
`float32`, `complex128` otherwise.  There is no rejection branch. -/
def irfft_spectrum_dtype (d : Dtype) : Dtype :=
  if d = Dtype.float16 ∨ d = Dtype.float32 then Dtype.complex64 else Dtype.complex128

/-- The observable state of the input array of `get_fft_plan`: its shape,
dtype, contiguity flags and contents. -/
structure NdArray where
  shape : List ℕ
  dtype : Dtype
  cContiguous : Bool
  fContiguous : Bool
  data : List ℚ
  deriving DecidableEq, Repr

/-- The plan description handed to the engine's planning interface. -/
structure PlanDesc where
  fullShape : List ℕ
  axes : Option (List ℤ)
  order : MemOrder
  fftType : CufftType
  deriving DecidableEq, Repr

/-- Python element-index normalization for `shape[axis] = s` on a list of
length `L`: a negative index counts from the end; an index out of
`[-L, L)` is an `IndexError` (`none`). -/
def pyNormIdx (L : ℕ) (i : ℤ) : Option ℕ :=
  if 0 ≤ i ∧ i < L then some i.toNat
  else if -(L : ℤ) ≤ i ∧ i < 0 then some (i + L).toNat
  else none

/-- The axes actually used by `get_fft_plan` after line 52-53 of the
source: when a transform shape is given but `axes` is omitted, `axes` is
rebound to `[0, ..., ndim-1]`; otherwise it is passed through. -/
def resolveAxes (ndim : ℕ) (tshape : Option (List ℕ)) (axes : Option (List ℤ)) :
    Option (List ℤ) :=
  match tshape, axes with
  | some _, none => some ((List.range ndim).map (fun i => (i : ℤ)))
  | _, _ => axes

/-- The full output shape computation of `get_fft_plan` (src lines 49-56):
start from a copy of the array's shape and, when a transform shape is
given, execute `for s, axis in zip(shape, axes): shape[axis] = s` (with
Python's negative-index semantics; an out-of-range axis is an
`IndexError`). -/
def computeFullShape (ashape : List ℕ) (tshape : Option (List ℕ))
    (axes : Option (List ℤ)) : Except PlanErr (List ℕ) :=
  match tshape with
  | none => Except.ok ashape
  | some ts =>
    if (ts.zip ((resolveAxes ashape.length (some ts) axes).getD [])).all
        (fun p => (pyNormIdx ashape.length p.2).isSome) then
      Except.ok (applyUpds (fun _ v => v) ashape
        ((ts.zip ((resolveAxes ashape.length (some ts) axes).getD [])).map
          (fun p => ((pyNormIdx ashape.length p.2).getD 0, p.1))))
    else Except.error PlanErr.AxisIndexError

/-- Modelled from the spec: the axis-adjacency contract enforced by
`_get_cufft_plan_nd` (part of this repository but not under `src/`).  The
resolved axis set, after normalizing negative indices into `[0, ndim)`,
must be a contiguous run of 1 to 3 distinct axis indices touching axis `0`
or axis `ndim-1`; omitted axes mean all axes, which is acceptable exactly
when `1 ≤ ndim ≤ 3`. -/
def axesLayoutOk (ndim : ℕ) (axes : Option (List ℤ)) : Bool :=
  match axes with
  | none => decide (1 ≤ ndim ∧ ndim ≤ 3)
  | some axs =>
    let na := axs.map (fun b => (pyNormIdx ndim b).getD 0)
    decide ((∀ b ∈ axs, (pyNormIdx ndim b).isSome = true) ∧ na ≠ [] ∧
      na.length ≤ 3 ∧ na.Nodup ∧
      (∃ lo ∈ na, ∀ y ∈ na, lo ≤ y ∧ y < lo + na.length) ∧
      (0 ∈ na ∨ ndim - 1 ∈ na))

/-- The plan builder `get_fft_plan` (src lines 7-60).  The transform kind
produced by `_convert_fft_type` from the array dtype and the `value_type`
argument is taken as the input `ft`; the validation sequence follows the
source: kind check, contiguity check, the two shape/axes length checks, the
axis-count check, the full-shape computation, and finally the adjacency
contract of the planning call. -/
def get_fft_plan (a : NdArray) (tshape : Option (List ℕ)) (axes : Option (List ℤ))
    (ft : CufftType) : Except PlanErr PlanDesc :=
  if ¬(ft = CufftType.C2C ∨ ft = CufftType.Z2Z) then
    Except.error PlanErr.UnsupportedTransformKind
  else if ¬(a.cContiguous = true ∨ a.fContiguous = true) then
    Except.error PlanErr.NonContiguousInput
  else
    if tshape.isSome = true ∧ axes.isSome = true ∧
        ¬((tshape.getD []).length = (axes.getD []).length) then
      Except.error PlanErr.ShapeAxesMismatch
    else if tshape.isSome = true ∧ axes = none ∧
        ¬((tshape.getD []).length = a.shape.length) then
      Except.error PlanErr.ShapeAxesMismatch
    else if tshape = none ∧ axes.isSome = true ∧
        a.shape.length < (axes.getD []).length then
      Except.error PlanErr.TooManyAxes
    else
      match computeFullShape a.shape tshape axes with
      | Except.error e => Except.error e
      | Except.ok fullShape =>
        if axesLayoutOk a.shape.length (resolveAxes a.shape.length tshape axes) = false then
          Except.error PlanErr.UnsupportedAxisLayout
        else
          Except.ok ⟨fullShape, resolveAxes a.shape.length tshape axes,
            if a.cContiguous then MemOrder.rowMajor else MemOrder.colMajor, ft⟩

/-- The call-level view of `get_fft_plan`: the result paired with the input
array as it stands after the call.  Every statement of the source only
reads the array (`a.flags`, `a.shape`, `a.ndim`); the only shape that is
written is the local copy `shape = list(a.shape)`, so the array threads
through unchanged. -/
def get_fft_plan_call (a : NdArray) (tshape : Option (List ℕ))
    (axes : Option (List ℤ)) (ft : CufftType) : Except PlanErr PlanDesc × NdArray :=
  (get_fft_plan a tshape axes ft, a)

lemma cc_ext {c d : CC} (h1 : c.re = d.re) (h2 : c.im = d.im) : c = d := by
  cases c; cases d; simp_all

lemma listUpd_length {α : Type} (l : List α) (i : ℕ) (f : α → α) :
    (listUpd l i f).length = l.length := by
  induction l generalizing i with
  | nil => rfl
  | cons a t ih =>
    cases i with
    | zero => rfl
    | succ j => simp [listUpd, ih]

lemma listUpd_getD_ne {α : Type} (l : List α) (i j : ℕ) (f : α → α) (d : α)
    (h : j ≠ i) : (listUpd l i f).getD j d = l.getD j d := by
  induction l generalizing i j with
  | nil => rfl
  | cons a t ih =>
    cases i with
    | zero =>
      cases j with
      | zero => exact absurd rfl h
      | succ j' => simp [listUpd]
    | succ i' =>
      cases j with
      | zero => simp [listUpd]
      | succ j' =>
        simp only [listUpd, List.getD_cons_succ]
        exact ih i' j' (fun hh => h (by omega))

lemma listUpd_getD_lt {α : Type} (l : List α) (i : ℕ) (f : α → α) (d : α)
    (h : i < l.length) : (listUpd l i f).getD i d = f (l.getD i d) := by
  induction l generalizing i with
  | nil => simp at h
  | cons a t ih =>
    cases i with
    | zero => rfl
    | succ i' =>
      simp only [listUpd, List.getD_cons_succ]
      exact ih i' (by simpa using h)

lemma applyUpds_nil {α β : Type} (upd : α → β → α) (l : List α) :
    applyUpds upd l [] = l := rfl

lemma applyUpds_cons {α β : Type} (upd : α → β → α) (l : List α) (p : ℕ × β)
    (ps : List (ℕ × β)) :
    applyUpds upd l (p :: ps) =
      applyUpds upd (listUpd l p.1 (fun c => upd c p.2)) ps := rfl

lemma applyUpds_length {α β : Type} (upd : α → β → α) (l : List α)
    (ps : List (ℕ × β)) : (applyUpds upd l ps).length = l.length := by
  induction ps generalizing l with
  | nil => rfl
  | cons p ps ih => rw [applyUpds_cons, ih, listUpd_length]

lemma applyUpds_getD_notMem {α β : Type} (upd : α → β → α) (l : List α)
    (ps : List (ℕ × β)) (j : ℕ) (d : α) (h : ∀ p ∈ ps, p.1 ≠ j) :
    (applyUpds upd l ps).getD j d = l.getD j d := by
  induction ps generalizing l with
  | nil => rfl
  | cons p ps ih =>
    rw [applyUpds_cons, ih _ (fun q hq => h q (List.mem_cons_of_mem _ hq)),
      listUpd_getD_ne]
    exact fun hh => h p (List.mem_cons_self _ _) (hh ▸ rfl)

lemma listUpd_of_le {α : Type} (l : List α) (i : ℕ) (f : α → α)
    (h : l.length ≤ i) : listUpd l i f = l := by
  induction l generalizing i with
  | nil => rfl
  | cons a t ih =>
    cases i with
    | zero => simp at h
    | succ i' => simp only [listUpd]; rw [ih i' (by simpa using h)]

lemma applyUpds_getD_comp {α β γ : Type} (upd : α → β → α) (g : α → γ)
    (hg : ∀ c v, g (upd c v) = g c) (l : List α) (ps : List (ℕ × β)) (j : ℕ)
    (d : α) : g ((applyUpds upd l ps).getD j d) = g (l.getD j d) := by
  induction ps generalizing l with
  | nil => rfl
  | cons p ps ih =>
    rw [applyUpds_cons, ih]
    by_cases hj : j = p.1
    · by_cases hlt : p.1 < l.length
      · rw [hj, listUpd_getD_lt _ _ _ _ hlt, hg]
      · rw [listUpd_of_le _ _ _ (by omega)]
    · rw [listUpd_getD_ne _ _ _ _ _ hj]

lemma applyUpds_getD_nth {α β : Type} (upd : α → β → α) (l : List α)
    (ps : List (ℕ × β)) (dp : ℕ × β) (d : α)
    (hnd : (ps.map Prod.fst).Nodup) (k : ℕ) (hk : k < ps.length)
    (hlt : (ps.getD k dp).1 < l.length) :
    (applyUpds upd l ps).getD (ps.getD k dp).1 d =
      upd (l.getD (ps.getD k dp).1 d) (ps.getD k dp).2 := by
  induction ps generalizing l k with
  | nil => simp at hk
  | cons p ps ih =>
    have hndtail : (ps.map Prod.fst).Nodup := (List.nodup_cons.mp hnd).2
    have hhead : p.1 ∉ ps.map Prod.fst := (List.nodup_cons.mp hnd).1
    cases k with
    | zero =>
      simp only [List.getD_cons_zero] at hlt ⊢
      rw [applyUpds_cons, applyUpds_getD_notMem]
      · rw [listUpd_getD_lt _ _ _ _ hlt]
      · intro q hq hq1
        exact hhead (hq1 ▸ List.mem_map_of_mem Prod.fst hq)
    | succ k' =>
      simp only [List.getD_cons_succ] at hlt ⊢
      have hk' : k' < ps.length := by simpa using hk
      have hmem : (ps.getD k' dp).1 ∈ ps.map Prod.fst := by
        rw [List.getD_eq_getElem _ _ hk']
        exact List.mem_map_of_mem Prod.fst (List.getElem_mem _)
      have hne : (ps.getD k' dp).1 ≠ p.1 := fun hh => hhead (hh ▸ hmem)
      rw [applyUpds_cons,
        ih (listUpd l p.1 (fun c => upd c p.2)) hndtail k' hk'
          (by rwa [listUpd_length]),
        listUpd_getD_ne _ _ _ _ _ hne]

lemma getD_zip {α β : Type} (l1 : List α) (l2 : List β) (k : ℕ) (d1 : α) (d2 : β)
    (h1 : k < l1.length) (h2 : k < l2.length) :
    (l1.zip l2).getD k (d1, d2) = (l1.getD k d1, l2.getD k d2) := by
  induction l1 generalizing l2 k with
  | nil => simp at h1
  | cons a t ih =>
    cases l2 with
    | nil => simp at h2
    | cons b s =>
      cases k with
      | zero => rfl
      | succ k' =>
        simp only [List.zip_cons_cons, List.getD_cons_succ]
        exact ih s k' (by simpa using h1) (by simpa using h2)

lemma getD_map {α β : Type} (f : α → β) (l : List α) (k : ℕ) (d : β) (d0 : α)
    (h : k < l.length) : (l.map f).getD k d = f (l.getD k d0) := by
  rw [List.getD_eq_getElem _ _ (by simpa using h), List.getD_eq_getElem _ _ h,
    List.getElem_map]

lemma getD_replicate {α : Type} (c : ℕ) (a : α) (j : ℕ) (d : α) (h : j < c) :
    (List.replicate c a).getD j d = a := by
  rw [List.getD_eq_getElem _ _ (by simpa using h), List.getElem_replicate]

lemma pyBound_natCast (L k : ℕ) : pyBound L (k : ℤ) = min k L := by
  unfold pyBound
  rw [if_neg (by omega)]
  omega

lemma pyBound_l0 (L : ℕ) : pyBound L 0 = 0 := by
  unfold pyBound
  rw [if_neg (by omega)]
  omega

lemma pyBound_l1 (L : ℕ) : pyBound L 1 = min 1 L := by
  unfold pyBound
  rw [if_neg (by omega)]
  omega

lemma pyBound_l2 (L : ℕ) : pyBound L 2 = min 2 L := by
  unfold pyBound
  rw [if_neg (by omega)]
  omega

lemma pySliceIdxs_length_none (L : ℕ) (start : ℤ) (step : ℕ) :
    (pySliceIdxs L start none step).length =
      (L - pyBound L start + step - 1) / step := by
  simp [pySliceIdxs]

lemma pySliceIdxs_length_some (L : ℕ) (start s : ℤ) (step : ℕ) :
    (pySliceIdxs L start (some s) step).length =
      (pyBound L s - pyBound L start + step - 1) / step := by
  simp [pySliceIdxs]

lemma pySliceIdxs_getD (L : ℕ) (start : ℤ) (stop : Option ℤ) (step k : ℕ)
    (hk : k < (pySliceIdxs L start stop step).length) :
    (pySliceIdxs L start stop step).getD k 0 = pyBound L start + step * k := by
  unfold pySliceIdxs at hk ⊢
  simp only [List.length_map, List.length_range] at hk
  rw [List.getD_eq_getElem _ _ (by simpa using hk)]
  simp

lemma pySliceIdxs_nodup (L : ℕ) (start : ℤ) (stop : Option ℤ) (step : ℕ)
    (hstep : 1 ≤ step) : (pySliceIdxs L start stop step).Nodup := by
  unfold pySliceIdxs
  refine List.Nodup.map (fun k1 k2 h => ?_) (List.nodup_range _)
  have h2 : step * k1 = step * k2 := by omega
  exact Nat.eq_of_mul_eq_mul_left (by omega) h2

lemma pySliceIdxs_mem (L : ℕ) (start : ℤ) (stop : Option ℤ) (step j : ℕ)
    (h : j ∈ pySliceIdxs L start stop step) :
    ∃ k, k < (pySliceIdxs L start stop step).length ∧
      j = pyBound L start + step * k := by
  unfold pySliceIdxs at h ⊢
  simp only [List.mem_map, List.mem_range] at h
  obtain ⟨k, hk, hj⟩ := h
  exact ⟨k, by simpa using hk, hj.symm⟩

lemma pySliceList_length {α : Type} (dflt : α) (l : List α) (start : ℤ)
    (stop : Option ℤ) (step : ℕ) :
    (pySliceList dflt l start stop step).length =
      (pySliceIdxs l.length start stop step).length := by
  simp [pySliceList]

lemma pySliceList_getD {α : Type} (dflt : α) (l : List α) (start : ℤ)
    (stop : Option ℤ) (step k : ℕ)
    (hk : k < (pySliceIdxs l.length start stop step).length) :
    (pySliceList dflt l start stop step).getD k dflt =
      l.getD (pyBound l.length start + step * k) dflt := by
  unfold pySliceList
  rw [getD_map _ _ _ _ 0 (by simpa using hk)]
  · rw [pySliceIdxs_getD _ _ _ _ _ hk]

lemma sliceAssign_ok {α β : Type} (upd : α → β → α) (l : List α) (idxs : List ℕ)
    (vals : List β) (h : vals.length = idxs.length) :
    sliceAssignWith upd l idxs vals = Except.ok (applyUpds upd l (idxs.zip vals)) := by
  simp [sliceAssignWith, h]

lemma rfftPack_spec (f : List CC) (n : ℕ) (junk : ℚ) (hn : 1 ≤ n)
    (hf : f.length = n / 2 + 1) :
    ∃ Z : List ℚ, rfftPack f (n : ℤ) junk = Except.ok Z ∧ Z.length = n ∧
      Z.getD 0 0 = (f.getD 0 cc0).re ∧
      (∀ i, i % 2 = 1 → i < n → Z.getD i 0 = (f.getD ((i + 1) / 2) cc0).re) ∧
      (∀ i, i % 2 = 0 → 2 ≤ i → i < n → Z.getD i 0 = (f.getD (i / 2) cc0).im) := by
  have htn : ((n : ℕ) : ℤ).toNat = n := by omega
  have hstop3 : (n : ℤ) - (f.length : ℤ) + 1 = ((n - n / 2 : ℕ) : ℤ) := by omega
  -- lengths of the three index and value lists
  have hi1len : (pySliceIdxs (List.replicate n junk).length 0 (some 1) 1).length = 1 := by
    rw [pySliceIdxs_length_some, List.length_replicate, pyBound_l0, pyBound_l1]
    omega
  have hv1len : ((pySliceList cc0 f 0 (some 1) 1).map CC.re).length = 1 := by
    rw [List.length_map, pySliceList_length, pySliceIdxs_length_some, pyBound_l0, pyBound_l1]
    omega
  obtain ⟨ps1, hps1⟩ : ∃ t : List (ℕ × ℚ),
      t = (pySliceIdxs (List.replicate n junk).length 0 (some 1) 1).zip
        ((pySliceList cc0 f 0 (some 1) 1).map CC.re) := ⟨_, rfl⟩
  obtain ⟨z1, hz1⟩ : ∃ t : List ℚ,
      t = applyUpds updVal (List.replicate n junk) ps1 := ⟨_, rfl⟩
  have e1 : sliceAssignWith updVal (List.replicate n junk)
      (pySliceIdxs (List.replicate n junk).length 0 (some 1) 1)
      ((pySliceList cc0 f 0 (some 1) 1).map CC.re) = Except.ok z1 := by
    rw [sliceAssign_ok _ _ _ _ (hv1len.trans hi1len.symm), ← hps1, ← hz1]
  have hz1len : z1.length = n := by
    rw [hz1, applyUpds_length, List.length_replicate]
  have hi2len : (pySliceIdxs z1.length 1 none 2).length = n / 2 := by
    rw [pySliceIdxs_length_none, hz1len, pyBound_l1]
    omega
  have hv2len : ((pySliceList cc0 f 1 none 1).map CC.re).length = n / 2 := by
    rw [List.length_map, pySliceList_length, pySliceIdxs_length_none, pyBound_l1]
    omega
  obtain ⟨ps2, hps2⟩ : ∃ t : List (ℕ × ℚ),
      t = (pySliceIdxs z1.length 1 none 2).zip
        ((pySliceList cc0 f 1 none 1).map CC.re) := ⟨_, rfl⟩
  obtain ⟨z2, hz2⟩ : ∃ t : List ℚ, t = applyUpds updVal z1 ps2 := ⟨_, rfl⟩
  have e2 : sliceAssignWith updVal z1 (pySliceIdxs z1.length 1 none 2)
      ((pySliceList cc0 f 1 none 1).map CC.re) = Except.ok z2 := by
    rw [sliceAssign_ok _ _ _ _ (hv2len.trans hi2len.symm), ← hps2, ← hz2]
  have hz2len : z2.length = n := by
    rw [hz2, applyUpds_length, hz1len]
  have hi3len : (pySliceIdxs z2.length 2 none 2).length = n - n / 2 - 1 := by
    rw [pySliceIdxs_length_none, hz2len, pyBound_l2]
    omega
  have hv3len : ((pySliceList cc0 f 1 (some ((n : ℤ) - (f.length : ℤ) + 1)) 1).map
      CC.im).length = n - n / 2 - 1 := by
    rw [List.length_map, pySliceList_length, hstop3, pySliceIdxs_length_some,
      pyBound_natCast, pyBound_l1]
    omega
  obtain ⟨ps3, hps3⟩ : ∃ t : List (ℕ × ℚ),
      t = (pySliceIdxs z2.length 2 none 2).zip
        ((pySliceList cc0 f 1 (some ((n : ℤ) - (f.length : ℤ) + 1)) 1).map CC.im) :=
    ⟨_, rfl⟩
  obtain ⟨z3, hz3⟩ : ∃ t : List ℚ, t = applyUpds updVal z2 ps3 := ⟨_, rfl⟩
  have e3 : sliceAssignWith updVal z2 (pySliceIdxs z2.length 2 none 2)
      ((pySliceList cc0 f 1 (some ((n : ℤ) - (f.length : ℤ) + 1)) 1).map CC.im) =
      Except.ok z3 := by
    rw [sliceAssign_ok _ _ _ _ (hv3len.trans hi3len.symm), ← hps3, ← hz3]
  have hz3len : z3.length = n := by
    rw [hz3, applyUpds_length, hz2len]
  -- nodup of the written positions
  have hnd1 : (ps1.map Prod.fst).Nodup := by
    rw [hps1, List.map_fst_zip _ _ (le_of_eq (hi1len.trans hv1len.symm))]
    exact pySliceIdxs_nodup _ _ _ _ (by omega)
  have hnd2 : (ps2.map Prod.fst).Nodup := by
    rw [hps2, List.map_fst_zip _ _ (le_of_eq (hi2len.trans hv2len.symm))]
    exact pySliceIdxs_nodup _ _ _ _ (by omega)
  have hnd3 : (ps3.map Prod.fst).Nodup := by
    rw [hps3, List.map_fst_zip _ _ (le_of_eq (hi3len.trans hv3len.symm))]
    exact pySliceIdxs_nodup _ _ _ _ (by omega)
  -- positions written by steps 2 and 3
  have hmem2 : ∀ p ∈ ps2, ∃ k, k < n / 2 ∧ p.1 = 1 + 2 * k := by
    rintro ⟨pa, pb⟩ hp
    have hpa : pa ∈ pySliceIdxs z1.length 1 none 2 := (List.of_mem_zip (hps2 ▸ hp)).1
    obtain ⟨k, hk, hpae⟩ := pySliceIdxs_mem _ _ _ _ _ hpa
    rw [pyBound_l1] at hpae
    rw [hi2len] at hk
    exact ⟨k, hk, by omega⟩
  have hmem3 : ∀ p ∈ ps3, ∃ k, k < n - n / 2 - 1 ∧ p.1 = 2 + 2 * k := by
    rintro ⟨pa, pb⟩ hp
    have hpa : pa ∈ pySliceIdxs z2.length 2 none 2 := (List.of_mem_zip (hps3 ▸ hp)).1
    obtain ⟨k, hk, hpae⟩ := pySliceIdxs_mem _ _ _ _ _ hpa
    rw [pyBound_l2] at hpae
    rw [hi3len] at hk
    refine ⟨k, hk, ?_⟩
    have hz2n : z2.length = n := hz2len
    omega
  refine ⟨z3, ?_, hz3len, ?_, ?_, ?_⟩
  · -- the computation itself
    unfold rfftPack
    rw [if_neg (by omega), htn]
    simp only [e1, e2, e3]
  · -- index 0 is written by the first assignment only
    have hnot3 : ∀ p ∈ ps3, p.1 ≠ 0 := by
      intro p hp
      obtain ⟨k, hk, hpe⟩ := hmem3 p hp
      omega
    have hnot2 : ∀ p ∈ ps2, p.1 ≠ 0 := by
      intro p hp
      obtain ⟨k, hk, hpe⟩ := hmem2 p hp
      omega
    have hzip1 : ps1.getD 0 (0, 0) = (0, (f.getD 0 cc0).re) := by
      rw [hps1, getD_zip _ _ _ _ _ (by rw [hi1len]; omega) (by rw [hv1len]; omega)]
      have ha : (pySliceIdxs (List.replicate n junk).length 0 (some 1) 1).getD 0 0 = 0 := by
        rw [pySliceIdxs_getD _ _ _ _ _ (by rw [hi1len]; omega), pyBound_l0]
      have hb : ((pySliceList cc0 f 0 (some 1) 1).map CC.re).getD 0 0 =
          (f.getD 0 cc0).re := by
        have hif : 0 < (pySliceIdxs f.length 0 (some 1) 1).length := by
          rw [pySliceIdxs_length_some, pyBound_l0, pyBound_l1]
          omega
        rw [getD_map CC.re _ _ _ cc0 (by rw [pySliceList_length]; omega)]
        rw [pySliceList_getD _ _ _ _ _ _ hif, pyBound_l0]
      rw [ha, hb]
    have hnth := applyUpds_getD_nth updVal (List.replicate n junk) ps1 (0, 0) 0 hnd1 0
      (by rw [hps1, List.length_zip, hi1len, hv1len]; omega)
      (by rw [hzip1]; show 0 < (List.replicate n junk).length; rw [List.length_replicate]; omega)
    rw [hzip1] at hnth
    rw [hz3, applyUpds_getD_notMem _ _ _ _ _ hnot3, hz2,
      applyUpds_getD_notMem _ _ _ _ _ hnot2, hz1]
    simpa [updVal] using hnth
  · -- odd positions come from the second assignment
    intro i hodd hilt
    have hnot3 : ∀ p ∈ ps3, p.1 ≠ i := by
      intro p hp
      obtain ⟨k, hk, hpe⟩ := hmem3 p hp
      omega
    have hzip2 : ps2.getD ((i - 1) / 2) (0, 0) = (i, (f.getD ((i + 1) / 2) cc0).re) := by
      rw [hps2, getD_zip _ _ _ _ _ (by rw [hi2len]; omega) (by rw [hv2len]; omega)]
      have ha : (pySliceIdxs z1.length 1 none 2).getD ((i - 1) / 2) 0 = i := by
        rw [pySliceIdxs_getD _ _ _ _ _ (by rw [hi2len]; omega), pyBound_l1]
        have hz1n : z1.length = n := hz1len
        omega
      have hb : ((pySliceList cc0 f 1 none 1).map CC.re).getD ((i - 1) / 2) 0 =
          (f.getD ((i + 1) / 2) cc0).re := by
        rw [getD_map CC.re _ _ _ cc0
          (by rw [pySliceList_length, pySliceIdxs_length_none, pyBound_l1]; omega)]
        rw [pySliceList_getD _ _ _ _ _ _
          (by rw [pySliceIdxs_length_none, pyBound_l1]; omega), pyBound_l1]
        have hidx : min 1 f.length + 1 * ((i - 1) / 2) = (i + 1) / 2 := by omega
        rw [hidx]
      rw [ha, hb]
    have hnth := applyUpds_getD_nth updVal z1 ps2 (0, 0) 0 hnd2 ((i - 1) / 2)
      (by rw [hps2, List.length_zip, hi2len, hv2len]; omega)
      (by rw [hzip2]; show i < z1.length; omega)
    rw [hzip2] at hnth
    rw [hz3, applyUpds_getD_notMem _ _ _ _ _ hnot3, hz2]
    simpa [updVal] using hnth
  · -- even positions at least 2 come from the third assignment
    intro i hev h2i hilt
    have hzip3 : ps3.getD ((i - 2) / 2) (0, 0) = (i, (f.getD (i / 2) cc0).im) := by
      rw [hps3, getD_zip _ _ _ _ _ (by rw [hi3len]; omega) (by rw [hv3len]; omega)]
      have ha : (pySliceIdxs z2.length 2 none 2).getD ((i - 2) / 2) 0 = i := by
        rw [pySliceIdxs_getD _ _ _ _ _ (by rw [hi3len]; omega), pyBound_l2]
        have hz2n : z2.length = n := hz2len
        omega
      have hb : ((pySliceList cc0 f 1 (some ((n : ℤ) - (f.length : ℤ) + 1)) 1).map
          CC.im).getD ((i - 2) / 2) 0 = (f.getD (i / 2) cc0).im := by
        rw [getD_map CC.im _ _ _ cc0
          (by rw [pySliceList_length, hstop3, pySliceIdxs_length_some,
            pyBound_natCast, pyBound_l1]; omega)]
        rw [pySliceList_getD _ _ _ _ _ _
          (by rw [hstop3, pySliceIdxs_length_some, pyBound_natCast, pyBound_l1]; omega),
          pyBound_l1]
        have hidx : min 1 f.length + 1 * ((i - 2) / 2) = i / 2 := by omega
        rw [hidx]
      rw [ha, hb]
    have hnth := applyUpds_getD_nth updVal z2 ps3 (0, 0) 0 hnd3 ((i - 2) / 2)
      (by rw [hps3, List.length_zip, hi3len, hv3len]; omega)
      (by rw [hzip3]; show i < z2.length; omega)
    rw [hzip3] at hnth
    rw [hz3]
    simpa [updVal] using hnth

lemma irfftUnpack_spec (x : List ℚ) (n : ℕ) (hx : 1 ≤ x.length) :
    ∃ W : List CC, irfftUnpack x (n : ℤ) = Except.ok W ∧ W.length = n / 2 + 1 ∧
      W.getD 0 cc0 = ⟨x.getD 0 0, 0⟩ ∧
      (∀ j, 1 ≤ j → j < n / 2 + 1 →
        (W.getD j cc0).re =
          if j ≤ min n x.length / 2 then x.getD (2 * j - 1) 0 else 0) ∧
      (∀ j, 1 ≤ j → j < n / 2 + 1 →
        (W.getD j cc0).im =
          if j + 1 ≤ (min n x.length + 1) / 2 then x.getD (2 * j) 0 else 0) := by
  have hge : ¬((n : ℤ) / 2 + 1 < 0) := by omega
  have htn : ((n : ℤ) / 2 + 1).toNat = n / 2 + 1 := by omega
  have hMn : min n x.length ≤ n := by omega
  have hML : min n x.length ≤ x.length := by omega
  have hstop2 : min (n : ℤ) (x.length : ℤ) / 2 + 1 =
      ((min n x.length / 2 + 1 : ℕ) : ℤ) := by omega
  have hstopm : min (n : ℤ) (x.length : ℤ) = ((min n x.length : ℕ) : ℤ) := by omega
  have hstop3 : (min (n : ℤ) (x.length : ℤ) + 1) / 2 =
      (((min n x.length + 1) / 2 : ℕ) : ℤ) := by omega
  -- lengths of the three index and value lists
  have hi1len : (pySliceIdxs (List.replicate (n / 2 + 1) cc0).length 0 (some 1) 1).length
      = 1 := by
    rw [pySliceIdxs_length_some, List.length_replicate, pyBound_l0, pyBound_l1]
    omega
  have hv1len : (pySliceList 0 x 0 (some 1) 1).length = 1 := by
    rw [pySliceList_length, pySliceIdxs_length_some, pyBound_l0, pyBound_l1]
    omega
  obtain ⟨ps1, hps1⟩ : ∃ t : List (ℕ × ℚ),
      t = (pySliceIdxs (List.replicate (n / 2 + 1) cc0).length 0 (some 1) 1).zip
        (pySliceList 0 x 0 (some 1) 1) := ⟨_, rfl⟩
  obtain ⟨z1, hz1⟩ : ∃ t : List CC,
      t = applyUpds updRe (List.replicate (n / 2 + 1) cc0) ps1 := ⟨_, rfl⟩
  have e1 : sliceAssignWith updRe (List.replicate (n / 2 + 1) cc0)
      (pySliceIdxs (List.replicate (n / 2 + 1) cc0).length 0 (some 1) 1)
      (pySliceList 0 x 0 (some 1) 1) = Except.ok z1 := by
    rw [sliceAssign_ok _ _ _ _ (hv1len.trans hi1len.symm), ← hps1, ← hz1]
  have hz1len : z1.length = n / 2 + 1 := by
    rw [hz1, applyUpds_length, List.length_replicate]
  have hi2len : (pySliceIdxs z1.length 1 (some (min (n : ℤ) (x.length : ℤ) / 2 + 1))
      1).length = min n x.length / 2 := by
    rw [hstop2, pySliceIdxs_length_some, pyBound_natCast, pyBound_l1, hz1len]
    omega
  have hv2len : (pySliceList 0 x 1 (some (min (n : ℤ) (x.length : ℤ))) 2).length =
      min n x.length / 2 := by
    rw [hstopm, pySliceList_length, pySliceIdxs_length_some, pyBound_natCast, pyBound_l1]
    omega
  obtain ⟨ps2, hps2⟩ : ∃ t : List (ℕ × ℚ),
      t = (pySliceIdxs z1.length 1 (some (min (n : ℤ) (x.length : ℤ) / 2 + 1)) 1).zip
        (pySliceList 0 x 1 (some (min (n : ℤ) (x.length : ℤ))) 2) := ⟨_, rfl⟩
  obtain ⟨z2, hz2⟩ : ∃ t : List CC, t = applyUpds updRe z1 ps2 := ⟨_, rfl⟩
  have e2 : sliceAssignWith updRe z1
      (pySliceIdxs z1.length 1 (some (min (n : ℤ) (x.length : ℤ) / 2 + 1)) 1)
      (pySliceList 0 x 1 (some (min (n : ℤ) (x.length : ℤ))) 2) = Except.ok z2 := by
    rw [sliceAssign_ok _ _ _ _ (hv2len.trans hi2len.symm), ← hps2, ← hz2]
  have hz2len : z2.length = n / 2 + 1 := by
    rw [hz2, applyUpds_length, hz1len]
  have hi3len : (pySliceIdxs z2.length 1 (some ((min (n : ℤ) (x.length : ℤ) + 1) / 2))
      1).length = (min n x.length + 1) / 2 - 1 := by
    rw [hstop3, pySliceIdxs_length_some, pyBound_natCast, pyBound_l1, hz2len]
    omega
  have hv3len : (pySliceList 0 x 2 (some (min (n : ℤ) (x.length : ℤ))) 2).length =
      (min n x.length + 1) / 2 - 1 := by
    rw [hstopm, pySliceList_length, pySliceIdxs_length_some, pyBound_natCast, pyBound_l2]
    omega
  obtain ⟨ps3, hps3⟩ : ∃ t : List (ℕ × ℚ),
      t = (pySliceIdxs z2.length 1 (some ((min (n : ℤ) (x.length : ℤ) + 1) / 2)) 1).zip
        (pySliceList 0 x 2 (some (min (n : ℤ) (x.length : ℤ))) 2) := ⟨_, rfl⟩
  obtain ⟨z3, hz3⟩ : ∃ t : List CC, t = applyUpds updIm z2 ps3 := ⟨_, rfl⟩
  have e3 : sliceAssignWith updIm z2
      (pySliceIdxs z2.length 1 (some ((min (n : ℤ) (x.length : ℤ) + 1) / 2)) 1)
      (pySliceList 0 x 2 (some (min (n : ℤ) (x.length : ℤ))) 2) = Except.ok z3 := by
    rw [sliceAssign_ok _ _ _ _ (hv3len.trans hi3len.symm), ← hps3, ← hz3]
  have hz3len : z3.length = n / 2 + 1 := by
    rw [hz3, applyUpds_length, hz2len]
  have hnd1 : (ps1.map Prod.fst).Nodup := by
    rw [hps1, List.map_fst_zip _ _ (le_of_eq (hi1len.trans hv1len.symm))]
    exact pySliceIdxs_nodup _ _ _ _ (by omega)
  have hnd2 : (ps2.map Prod.fst).Nodup := by
    rw [hps2, List.map_fst_zip _ _ (le_of_eq (hi2len.trans hv2len.symm))]
    exact pySliceIdxs_nodup _ _ _ _ (by omega)
  have hnd3 : (ps3.map Prod.fst).Nodup := by
    rw [hps3, List.map_fst_zip _ _ (le_of_eq (hi3len.trans hv3len.symm))]
    exact pySliceIdxs_nodup _ _ _ _ (by omega)
  have hmem1 : ∀ p ∈ ps1, p.1 = 0 := by
    rintro ⟨pa, pb⟩ hp
    have hpa : pa ∈ pySliceIdxs (List.replicate (n / 2 + 1) cc0).length 0 (some 1) 1 :=
      (List.of_mem_zip (hps1 ▸ hp)).1
    obtain ⟨k, hk, hpae⟩ := pySliceIdxs_mem _ _ _ _ _ hpa
    rw [pyBound_l0] at hpae
    rw [hi1len] at hk
    omega
  have hmem2 : ∀ p ∈ ps2, ∃ k, k < min n x.length / 2 ∧ p.1 = 1 + k := by
    rintro ⟨pa, pb⟩ hp
    have hpa : pa ∈ pySliceIdxs z1.length 1
        (some (min (n : ℤ) (x.length : ℤ) / 2 + 1)) 1 := (List.of_mem_zip (hps2 ▸ hp)).1
    obtain ⟨k, hk, hpae⟩ := pySliceIdxs_mem _ _ _ _ _ hpa
    rw [pyBound_l1] at hpae
    rw [hi2len] at hk
    have hz1n : z1.length = n / 2 + 1 := hz1len
    exact ⟨k, hk, by omega⟩
  have hmem3 : ∀ p ∈ ps3, ∃ k, k < (min n x.length + 1) / 2 - 1 ∧ p.1 = 1 + k := by
    rintro ⟨pa, pb⟩ hp
    have hpa : pa ∈ pySliceIdxs z2.length 1
        (some ((min (n : ℤ) (x.length : ℤ) + 1) / 2)) 1 := (List.of_mem_zip (hps3 ▸ hp)).1
    obtain ⟨k, hk, hpae⟩ := pySliceIdxs_mem _ _ _ _ _ hpa
    rw [pyBound_l1] at hpae
    rw [hi3len] at hk
    have hz2n : z2.length = n / 2 + 1 := hz2len
    exact ⟨k, hk, by omega⟩
  refine ⟨z3, ?_, hz3len, ?_, ?_, ?_⟩
  · unfold irfftUnpack
    rw [if_neg hge, htn]
    simp only [e1, e2, e3]
  · -- index 0: written only by the first assignment
    have hnot3 : ∀ p ∈ ps3, p.1 ≠ 0 := by
      intro p hp
      obtain ⟨k, hk, hpe⟩ := hmem3 p hp
      omega
    have hnot2 : ∀ p ∈ ps2, p.1 ≠ 0 := by
      intro p hp
      obtain ⟨k, hk, hpe⟩ := hmem2 p hp
      omega
    have hzip1 : ps1.getD 0 (0, 0) = (0, x.getD 0 0) := by
      rw [hps1, getD_zip _ _ _ _ _ (by rw [hi1len]; omega) (by rw [hv1len]; omega)]
      have ha : (pySliceIdxs (List.replicate (n / 2 + 1) cc0).length 0 (some 1)
          1).getD 0 0 = 0 := by
        rw [pySliceIdxs_getD _ _ _ _ _ (by rw [hi1len]; omega), pyBound_l0]
      have hxlen : 0 < (pySliceIdxs x.length 0 (some 1) 1).length := by
        rw [pySliceIdxs_length_some, pyBound_l0, pyBound_l1]
        omega
      have hb : (pySliceList 0 x 0 (some 1) 1).getD 0 0 = x.getD 0 0 := by
        rw [pySliceList_getD _ _ _ _ _ _ hxlen, pyBound_l0]
      rw [ha, hb]
    have hnth := applyUpds_getD_nth updRe (List.replicate (n / 2 + 1) cc0) ps1 (0, 0)
      cc0 hnd1 0
      (by rw [hps1, List.length_zip, hi1len, hv1len]; omega)
      (by rw [hzip1]; show 0 < (List.replicate (n / 2 + 1) cc0).length
          rw [List.length_replicate]; omega)
    rw [hzip1] at hnth
    rw [hz3, applyUpds_getD_notMem _ _ _ _ _ hnot3, hz2,
      applyUpds_getD_notMem _ _ _ _ _ hnot2, hz1]
    rw [hnth, getD_replicate _ _ _ _ (by omega)]
    simp [updRe, cc0]
  · -- real parts of positions 1 .. n/2
    intro j h1 hlt
    have hre3 : ∀ c v, CC.re (updIm c v) = CC.re c := by
      intro c v
      simp [updIm]
    have hcomp3 : CC.re (z3.getD j cc0) = CC.re (z2.getD j cc0) := by
      rw [hz3]
      exact applyUpds_getD_comp updIm CC.re hre3 z2 ps3 j cc0
    rw [hcomp3]
    by_cases hcase : j ≤ min n x.length / 2
    · rw [if_pos hcase]
      have hzip2 : ps2.getD (j - 1) (0, 0) = (j, x.getD (2 * j - 1) 0) := by
        rw [hps2, getD_zip _ _ _ _ _ (by rw [hi2len]; omega) (by rw [hv2len]; omega)]
        have ha : (pySliceIdxs z1.length 1
            (some (min (n : ℤ) (x.length : ℤ) / 2 + 1)) 1).getD (j - 1) 0 = j := by
          rw [pySliceIdxs_getD _ _ _ _ _ (by rw [hi2len]; omega), pyBound_l1]
          have hz1n : z1.length = n / 2 + 1 := hz1len
          omega
        have hb : (pySliceList 0 x 1 (some (min (n : ℤ) (x.length : ℤ))) 2).getD
            (j - 1) 0 = x.getD (2 * j - 1) 0 := by
          rw [pySliceList_getD _ _ _ _ _ _
            (by rw [hstopm, pySliceIdxs_length_some, pyBound_natCast, pyBound_l1]; omega),
            pyBound_l1]
          have hidx : min 1 x.length + 2 * (j - 1) = 2 * j - 1 := by omega
          rw [hidx]
        rw [ha, hb]
      have hnth := applyUpds_getD_nth updRe z1 ps2 (0, 0) cc0 hnd2 (j - 1)
        (by rw [hps2, List.length_zip, hi2len, hv2len]; omega)
        (by rw [hzip2]; show j < z1.length; omega)
      rw [hzip2] at hnth
      rw [hz2, hnth]
      simp [updRe]
    · rw [if_neg hcase]
      have hnot2 : ∀ p ∈ ps2, p.1 ≠ j := by
        intro p hp
        obtain ⟨k, hk, hpe⟩ := hmem2 p hp
        omega
      have hnot1 : ∀ p ∈ ps1, p.1 ≠ j := by
        intro p hp
        have := hmem1 p hp
        omega
      rw [hz2, applyUpds_getD_notMem _ _ _ _ _ hnot2, hz1,
        applyUpds_getD_notMem _ _ _ _ _ hnot1,
        getD_replicate _ _ _ _ (by omega)]
      simp [cc0]
  · -- imaginary parts of positions 1 .. n/2
    intro j h1 hlt
    by_cases hcase : j + 1 ≤ (min n x.length + 1) / 2
    · rw [if_pos hcase]
      have hL3 : 3 ≤ x.length := by omega
      have hzip3 : ps3.getD (j - 1) (0, 0) = (j, x.getD (2 * j) 0) := by
        rw [hps3, getD_zip _ _ _ _ _ (by rw [hi3len]; omega) (by rw [hv3len]; omega)]
        have ha : (pySliceIdxs z2.length 1
            (some ((min (n : ℤ) (x.length : ℤ) + 1) / 2)) 1).getD (j - 1) 0 = j := by
          rw [pySliceIdxs_getD _ _ _ _ _ (by rw [hi3len]; omega), pyBound_l1]
          have hz2n : z2.length = n / 2 + 1 := hz2len
          omega
        have hb : (pySliceList 0 x 2 (some (min (n : ℤ) (x.length : ℤ))) 2).getD
            (j - 1) 0 = x.getD (2 * j) 0 := by
          rw [pySliceList_getD _ _ _ _ _ _
            (by rw [hstopm, pySliceIdxs_length_some, pyBound_natCast, pyBound_l2]; omega),
            pyBound_l2]
          have hidx : min 2 x.length + 2 * (j - 1) = 2 * j := by omega
          rw [hidx]
        rw [ha, hb]
      have hnth := applyUpds_getD_nth updIm z2 ps3 (0, 0) cc0 hnd3 (j - 1)
        (by rw [hps3, List.length_zip, hi3len, hv3len]; omega)
        (by rw [hzip3]; show j < z2.length; omega)
      rw [hzip3] at hnth
      rw [hz3, hnth]
      simp [updIm]
    · rw [if_neg hcase]
      have hnot3 : ∀ p ∈ ps3, p.1 ≠ j := by
        intro p hp
        obtain ⟨k, hk, hpe⟩ := hmem3 p hp
        omega
      have him2 : ∀ c v, CC.im (updRe c v) = CC.im c := by
        intro c v
        simp [updRe]
      have hcomp2 : CC.im (z2.getD j cc0) = CC.im (z1.getD j cc0) := by
        rw [hz2]
        exact applyUpds_getD_comp updRe CC.im him2 z1 ps2 j cc0
      have hcomp1 : CC.im (z1.getD j cc0) =
          CC.im ((List.replicate (n / 2 + 1) cc0).getD j cc0) := by
        rw [hz1]
        exact applyUpds_getD_comp updRe CC.im him2 _ ps1 j cc0
      rw [hz3, applyUpds_getD_notMem _ _ _ _ _ hnot3, hcomp2, hcomp1,
        getD_replicate _ _ _ _ (by omega)]
      simp [cc0]

lemma rfft_pack_unpack_exact (f : List CC) (n : ℕ) (junk : ℚ) (hn : 1 ≤ n)
    (hf : f.length = n / 2 + 1) (h0 : (f.getD 0 cc0).im = 0)
    (hny : n % 2 = 0 → (f.getD (n / 2) cc0).im = 0) :
    ∃ Z : List ℚ, rfftPack f (n : ℤ) junk = Except.ok Z ∧ Z.length = n ∧
      irfftUnpack Z (n : ℤ) = Except.ok f := by
  obtain ⟨Z, hZ, hZlen, hZ0, hZodd, hZev⟩ := rfftPack_spec f n junk hn hf
  obtain ⟨W, hW, hWlen, hW0, hWre, hWim⟩ := irfftUnpack_spec Z n (by omega)
  refine ⟨Z, hZ, hZlen, ?_⟩
  rw [hW]
  have hMeq : min n Z.length = n := by omega
  have hWf : W = f := by
    apply List.ext_getElem (by rw [hWlen, hf])
    intro j hj1 hj2
    rw [← List.getD_eq_getElem W cc0 hj1, ← List.getD_eq_getElem f cc0 hj2]
    have hjlt : j < n / 2 + 1 := by rw [hWlen] at hj1; exact hj1
    by_cases hj0 : j = 0
    · subst hj0
      rw [hW0, hZ0]
      exact cc_ext rfl h0.symm
    · have hj1' : 1 ≤ j := by omega
      apply cc_ext
      · rw [hWre j hj1' hjlt, hMeq, if_pos (by omega)]
        rw [hZodd (2 * j - 1) (by omega) (by omega)]
        have hidx : (2 * j - 1 + 1) / 2 = j := by omega
        rw [hidx]
      · by_cases hcase : j + 1 ≤ (n + 1) / 2
        · rw [hWim j hj1' hjlt, hMeq, if_pos hcase]
          rw [hZev (2 * j) (by omega) (by omega) (by omega)]
          have hidx : 2 * j / 2 = j := by omega
          rw [hidx]
        · rw [hWim j hj1' hjlt, hMeq, if_neg hcase]
          have hev : n % 2 = 0 := by omega
          have hjn : j = n / 2 := by omega
          rw [hjn]
          exact (hny hev).symm
  rw [hWf]

lemma zip_map_swap {γ : Type} (ts : List γ) (axs : List ℤ) (g : ℤ → ℕ) :
    (ts.zip axs).map (fun p => (g p.2, p.1)) = (axs.map g).zip ts := by
  induction ts generalizing axs with
  | nil => cases axs <;> simp
  | cons t ts ih =>
    cases axs with
    | nil => simp
    | cons b bs => simp [ih]

lemma computeFullShape_spec (ashape : List ℕ) (ts : List ℕ) (axes : Option (List ℤ))
    (axs : List ℤ) (haxs : (resolveAxes ashape.length (some ts) axes).getD [] = axs)
    (hval : ∀ b ∈ axs, (pyNormIdx ashape.length b).isSome = true) :
    computeFullShape ashape (some ts) axes =
      Except.ok (applyUpds (fun _ v => v) ashape
        ((axs.map (fun b => (pyNormIdx ashape.length b).getD 0)).zip ts)) := by
  simp only [computeFullShape]
  rw [haxs]
  have hall : (ts.zip axs).all (fun p => (pyNormIdx ashape.length p.2).isSome) = true := by
    rw [List.all_eq_true]
    intro p hp
    exact hval p.2 (List.of_mem_zip hp).2
  rw [if_pos hall, zip_map_swap ts axs (fun b => (pyNormIdx ashape.length b).getD 0)]

lemma computeFullShape_err (ashape : List ℕ) (tshape : Option (List ℕ))
    (axes : Option (List ℤ)) (e : PlanErr)
    (h : computeFullShape ashape tshape axes = Except.error e) :
    e = PlanErr.AxisIndexError := by
  cases tshape with
  | none => simp [computeFullShape] at h
  | some ts =>
    simp only [computeFullShape] at h
    split at h
    · simp at h
    · simp only [Except.error.injEq] at h
      exact h.symm

lemma pyNormIdx_lt (L : ℕ) (b : ℤ) (v : ℕ) (h : pyNormIdx L b = some v) : v < L := by
  unfold pyNormIdx at h
  split at h
  · simp at h
    omega
  · split at h
    · simp at h
      omega
    · simp at h

/-- C9: `get_fft_plan` never mutates its input array.  In the call-level
view `get_fft_plan_call` the array threads through the call unchanged: its
shape, dtype, layout flags and contents afterwards are exactly those passed
in — the only shape the source writes to is the local copy `list(a.shape)`
used by `computeFullShape`, never the array itself. -/
theorem get_fft_plan_preserves_input (a : NdArray) (tshape : Option (List ℕ))
    (axes : Option (List ℤ)) (ft : CufftType) :
    ((get_fft_plan_call a tshape axes ft).2.shape = a.shape ∧
      (get_fft_plan_call a tshape axes ft).2.dtype = a.dtype ∧
      (get_fft_plan_call a tshape axes ft).2.cContiguous = a.cContiguous ∧
      (get_fft_plan_call a tshape axes ft).2.fContiguous = a.fContiguous ∧
      (get_fft_plan_call a tshape axes ft).2.data = a.data) ∧
    (get_fft_plan_call a tshape axes ft).2 = a :=
  ⟨⟨rfl, rfl, rfl, rfl, rfl⟩, rfl⟩

/-- C10: `irfft` contains no dtype rejection.  Its intermediate spectrum
dtype is a total two-way branch: `complex64` exactly when the input dtype
is `float16` or `float32`, and `complex128` for every other dtype,
including `float64`, integer dtypes and complex inputs. -/
theorem irfft_dtype_two_way_branch :
    (∀ d : Dtype, irfft_spectrum_dtype d = Dtype.complex64 ∨
      irfft_spectrum_dtype d = Dtype.complex128) ∧
    (∀ d : Dtype, irfft_spectrum_dtype d = Dtype.complex64 ↔
      (d = Dtype.float16 ∨ d = Dtype.float32)) ∧
    irfft_spectrum_dtype Dtype.float64 = Dtype.complex128 ∧
    irfft_spectrum_dtype Dtype.int32 = Dtype.complex128 ∧
    irfft_spectrum_dtype Dtype.complex64 = Dtype.complex128 := by
  refine ⟨?_, ?_, by decide, by decide, by decide⟩
  · intro d
    cases d <;> decide
  · intro d
    cases d <;> decide

/-- C3: for every `(shape, axes)` pair that passes `get_fft_plan`'s
validation, the full output shape is the array's shape with the entry at
each position named by `axes` (after Python negative-index normalization,
`axes` defaulting to `0..ndim-1` when omitted, as captured by
`resolveAxes`) overwritten by the corresponding entry of `shape`; every
non-transformed axis keeps its original length, and a successful
`get_fft_plan` hands exactly this full shape to the engine's planner. -/
theorem get_fft_plan_full_shape (a : NdArray) (ts : List ℕ) (axes : Option (List ℤ))
    (axs : List ℤ) (haxs : (resolveAxes a.shape.length (some ts) axes).getD [] = axs)
    (hval : ∀ b ∈ axs, (pyNormIdx a.shape.length b).isSome = true)
    (hlen : ts.length = axs.length)
    (hnd : (axs.map (fun b => (pyNormIdx a.shape.length b).getD 0)).Nodup) :
    ∃ sh : List ℕ, computeFullShape a.shape (some ts) axes = Except.ok sh ∧
      sh.length = a.shape.length ∧
      (∀ k, k < axs.length →
        sh.getD ((pyNormIdx a.shape.length (axs.getD k 0)).getD 0) 0 = ts.getD k 0) ∧
      (∀ j, j < a.shape.length →
        (∀ b ∈ axs, (pyNormIdx a.shape.length b).getD 0 ≠ j) →
        sh.getD j 0 = a.shape.getD j 0) ∧
      (∀ ft p, get_fft_plan a (some ts) axes ft = Except.ok p → p.fullShape = sh) := by
  have hcs := computeFullShape_spec a.shape ts axes axs haxs hval
  refine ⟨applyUpds (fun _ v => v) a.shape
    ((axs.map (fun b => (pyNormIdx a.shape.length b).getD 0)).zip ts), hcs,
    by rw [applyUpds_length], ?_, ?_, ?_⟩
  · intro k hk
    have hklt : k < ((axs.map (fun b => (pyNormIdx a.shape.length b).getD 0)).zip
        ts).length := by
      rw [List.length_zip, List.length_map]
      omega
    have hzipk : ((axs.map (fun b => (pyNormIdx a.shape.length b).getD 0)).zip
        ts).getD k (0, 0) =
        ((axs.map (fun b => (pyNormIdx a.shape.length b).getD 0)).getD k 0,
          ts.getD k 0) :=
      getD_zip _ _ _ _ _ (by rw [List.length_map]; omega) (by omega)
    have hnaxk : (axs.map (fun b => (pyNormIdx a.shape.length b).getD 0)).getD k 0 =
        (pyNormIdx a.shape.length (axs.getD k 0)).getD 0 :=
      getD_map _ _ _ _ 0 (by omega)
    have hmemk : axs.getD k 0 ∈ axs := by
      rw [List.getD_eq_getElem _ _ (by omega)]
      exact List.getElem_mem _
    obtain ⟨v, hv⟩ := Option.isSome_iff_exists.mp (hval _ hmemk)
    have hlt' : (axs.map (fun b => (pyNormIdx a.shape.length b).getD 0)).getD k 0 <
        a.shape.length := by
      rw [hnaxk, hv, Option.getD_some]
      exact pyNormIdx_lt _ _ _ hv
    have hnd' : (((axs.map (fun b => (pyNormIdx a.shape.length b).getD 0)).zip
        ts).map Prod.fst).Nodup := by
      rw [List.map_fst_zip _ _ (by rw [List.length_map]; omega)]
      exact hnd
    have hnth := applyUpds_getD_nth (fun _ v => v) a.shape _ (0, 0) 0 hnd' k hklt
      (by rw [hzipk]
          show (axs.map (fun b => (pyNormIdx a.shape.length b).getD 0)).getD k 0 <
            a.shape.length
          exact hlt')
    rw [hzipk] at hnth
    rw [hnaxk] at hnth
    exact hnth
  · intro j hj hnotmem
    apply applyUpds_getD_notMem
    rintro ⟨pa, pb⟩ hp hpa
    have hpam : pa ∈ axs.map (fun b => (pyNormIdx a.shape.length b).getD 0) :=
      (List.of_mem_zip hp).1
    obtain ⟨b, hb, hbe⟩ := List.mem_map.mp hpam
    exact hnotmem b hb (hbe.trans hpa)
  · intro ft p hp
    simp only [get_fft_plan] at hp
    split_ifs at hp with h1 h2 h3 h4 h5
    all_goals
      (rw [hcs] at hp
       split at hp
       all_goals try exact Except.noConfusion hp
       all_goals
         (rename_i fullShape heq
          simp only [Except.ok.injEq] at hp heq
          rw [← hp, ← heq]))

/-- Witness for C3 at the spec's example: a 3×5×7 array with
`shape=(8,)`, `axes=(1,)` yields the full output shape `(3, 8, 7)`. -/
theorem get_fft_plan_full_shape_witness :
    computeFullShape [3, 5, 7] (some [8]) (some [1]) = Except.ok [3, 8, 7] ∧
    ((resolveAxes 3 (some [8]) (some [1])).getD [] = [1] ∧
      (∀ b ∈ ([1] : List ℤ), (pyNormIdx 3 b).isSome = true) ∧
      ([8] : List ℕ).length = ([1] : List ℤ).length ∧
      (([1] : List ℤ).map (fun b => (pyNormIdx 3 b).getD 0)).Nodup) ∧
    (∃ sh : List ℕ, computeFullShape [3, 5, 7] (some [8]) (some [1]) = Except.ok sh ∧
      sh.length = 3 ∧
      (∀ k, k < ([1] : List ℤ).length →
        sh.getD ((pyNormIdx 3 (([1] : List ℤ).getD k 0)).getD 0) 0 =
          ([8] : List ℕ).getD k 0) ∧
      (∀ j, j < 3 → (∀ b ∈ ([1] : List ℤ), (pyNormIdx 3 b).getD 0 ≠ j) →
        sh.getD j 0 = ([3, 5, 7] : List ℕ).getD j 0) ∧
      (∀ ft p, get_fft_plan ⟨[3, 5, 7], Dtype.complex64, true, false, []⟩
        (some [8]) (some [1]) ft = Except.ok p → p.fullShape = sh)) :=
  ⟨by decide, ⟨by decide, by decide, by decide, by decide⟩,
    get_fft_plan_full_shape ⟨[3, 5, 7], Dtype.complex64, true, false, []⟩ [8]
      (some [1]) [1] (by decide) (by decide) (by decide) (by decide)⟩

/-- C4: `get_fft_plan` raises `ShapeAxesMismatch` exactly for mismatched
`shape`/`axes` lengths, regardless of which argument is `None`: the error
occurs only in the two mismatch situations; and for every array admissible
to the builder (valid transform kind, unambiguous contiguous layout, as the
spec's `ArrayView` data model requires) each mismatch situation does raise
`ShapeAxesMismatch`. -/
theorem get_fft_plan_mismatch_iff :
    (∀ (a : NdArray) (ts : Option (List ℕ)) (axes : Option (List ℤ)) (ft : CufftType),
      get_fft_plan a ts axes ft = Except.error PlanErr.ShapeAxesMismatch →
      (∃ s ax, ts = some s ∧ axes = some ax ∧ s.length ≠ ax.length) ∨
      (∃ s, ts = some s ∧ axes = none ∧ s.length ≠ a.shape.length)) ∧
    (∀ (a : NdArray) (ts : Option (List ℕ)) (axes : Option (List ℤ)) (ft : CufftType),
      (ft = CufftType.C2C ∨ ft = CufftType.Z2Z) →
      (a.cContiguous = true ∨ a.fContiguous = true) →
      ((∃ s ax, ts = some s ∧ axes = some ax ∧ s.length ≠ ax.length) ∨
       (∃ s, ts = some s ∧ axes = none ∧ s.length ≠ a.shape.length)) →
      get_fft_plan a ts axes ft = Except.error PlanErr.ShapeAxesMismatch) := by
  constructor
  · intro a ts axes ft h
    simp only [get_fft_plan] at h
    split at h
    · exact absurd h (by decide)
    · split at h
      · exact absurd h (by decide)
      · split at h
        · rename_i h3
          obtain ⟨hs, hax, hne⟩ := h3
          obtain ⟨s, hs'⟩ := Option.isSome_iff_exists.mp hs
          obtain ⟨ax, hax'⟩ := Option.isSome_iff_exists.mp hax
          refine Or.inl ⟨s, ax, hs', hax', ?_⟩
          rw [hs', hax'] at hne
          simpa using hne
        · split at h
          · rename_i h4
            obtain ⟨hs, hax, hne⟩ := h4
            obtain ⟨s, hs'⟩ := Option.isSome_iff_exists.mp hs
            refine Or.inr ⟨s, hs', hax, ?_⟩
            rw [hs'] at hne
            simpa using hne
          · split at h
            · exact absurd h (by decide)
            · cases hcs : computeFullShape a.shape ts axes with
              | error e =>
                rw [hcs] at h
                split at h
                · rename_i e2 heq
                  have hae := computeFullShape_err _ _ _ _ hcs
                  simp only [Except.error.injEq] at heq h
                  rw [hae] at heq
                  rw [← heq] at h
                  exact absurd h (by decide)
                · rename_i fs heq
                  exact Except.noConfusion heq
              | ok fs =>
                rw [hcs] at h
                split at h
                · rename_i e2 heq
                  exact Except.noConfusion heq
                · split at h
                  · exact absurd h (by decide)
                  · exact Except.noConfusion h
  · intro a ts axes ft hk hcont hcase
    simp only [get_fft_plan]
    rw [if_neg (not_not_intro hk), if_neg (not_not_intro hcont)]
    rcases hcase with ⟨s, ax, hs, hax, hne⟩ | ⟨s, hs, hax, hne⟩
    · subst hs
      subst hax
      rw [if_pos ⟨rfl, rfl, by simpa using hne⟩]
    · subst hs
      subst hax
      rw [if_neg (by simp), if_pos ⟨rfl, rfl, by simpa using hne⟩]

/-- Witness for C4: a contiguous 2-D array with a one-entry `shape` and
omitted `axes` raises `ShapeAxesMismatch`. -/
theorem get_fft_plan_mismatch_iff_witness :
    (CufftType.C2C = CufftType.C2C ∨ CufftType.C2C = CufftType.Z2Z) ∧
    get_fft_plan ⟨[3, 4], Dtype.complex64, true, false, []⟩ (some [5]) none
      CufftType.C2C = Except.error PlanErr.ShapeAxesMismatch :=
  ⟨Or.inl rfl,
    get_fft_plan_mismatch_iff.2 ⟨[3, 4], Dtype.complex64, true, false, []⟩
      (some [5]) none CufftType.C2C (Or.inl rfl) (Or.inl rfl)
      (Or.inr ⟨[5], rfl, rfl, by decide⟩)⟩

/-- C7: once the earlier validation stages pass, `get_fft_plan` fails with
`UnsupportedAxisLayout` exactly when the resolved axis set (negative
indices normalized, omitted axes meaning all axes) is not a contiguous run
of 1 to 3 axis indices touching axis `0` or axis `ndim-1`, as captured by
the spec-modelled `axesLayoutOk` contract of the planning call. -/
theorem get_fft_plan_axis_adjacency (a : NdArray) (ts : Option (List ℕ))
    (axes : Option (List ℤ)) (ft : CufftType)
    (hk : ft = CufftType.C2C ∨ ft = CufftType.Z2Z)
    (hcont : a.cContiguous = true ∨ a.fContiguous = true)
    (h1 : ¬(ts.isSome = true ∧ axes.isSome = true ∧
      ¬(ts.getD []).length = (axes.getD []).length))
    (h2 : ¬(ts.isSome = true ∧ axes = none ∧ ¬(ts.getD []).length = a.shape.length))
    (h3 : ¬(ts = none ∧ axes.isSome = true ∧ a.shape.length < (axes.getD []).length))
    (sh : List ℕ) (hcs : computeFullShape a.shape ts axes = Except.ok sh) :
    get_fft_plan a ts axes ft = Except.error PlanErr.UnsupportedAxisLayout ↔
      axesLayoutOk a.shape.length (resolveAxes a.shape.length ts axes) = false := by
  simp only [get_fft_plan]
  rw [if_neg (not_not_intro hk), if_neg (not_not_intro hcont), if_neg h1, if_neg h2,
    if_neg h3, hcs]
  cases hlay : axesLayoutOk a.shape.length (resolveAxes a.shape.length ts axes) with
  | false => simp [hlay]
  | true => simp [hlay]

/-- Witness for C7 on a 4-D array: axes `[1,2]` are rejected with
`UnsupportedAxisLayout`, while the axis sets `[0,1]` and `[2,3]` satisfy
the adjacency contract. -/
theorem get_fft_plan_axis_adjacency_witness :
    axesLayoutOk 4 (resolveAxes 4 none (some [1, 2])) = false ∧
    axesLayoutOk 4 (resolveAxes 4 none (some [0, 1])) = true ∧
    axesLayoutOk 4 (resolveAxes 4 none (some [2, 3])) = true ∧
    (get_fft_plan ⟨[2, 2, 2, 2], Dtype.complex64, true, false, []⟩ none
        (some [1, 2]) CufftType.C2C = Except.error PlanErr.UnsupportedAxisLayout ↔
      axesLayoutOk 4 (resolveAxes 4 none (some [1, 2])) = false) :=
  ⟨by decide, by decide, by decide,
    get_fft_plan_axis_adjacency ⟨[2, 2, 2, 2], Dtype.complex64, true, false, []⟩
      none (some [1, 2]) CufftType.C2C (Or.inl rfl) (Or.inl rfl) (by decide)
      (by decide) (by decide) [2, 2, 2, 2] (by decide)⟩

/-- C1: for every engine spectrum `f` of length `n//2 + 1`, the packed
output `Z` of `rfft` has length `n` along the transform axis with
`Z[0] = Re(f[0])`, `Z[i] = Re(f[(i+1)/2])` for every odd `i < n`, and
`Z[i] = Im(f[i/2])` for every even `i` with `2 <= i < n`; hence for even
`n` the `n` values end in a real slot and for odd `n` in a trailing
imaginary slot.  The result is independent of the unspecified contents
`junk` of the `cupy.empty` output buffer. -/
theorem rfft_packed_layout (e : List ℚ → ℤ → Except CodecErr (List CC)) (junk : ℚ)
    (x : List ℚ) (n : ℕ) (f : List CC) (hn : 1 ≤ n) (he : e x (n : ℤ) = Except.ok f)
    (hf : f.length = n / 2 + 1) :
    ∃ Z : List ℚ, rfft1 e junk x (n : ℤ) = Except.ok Z ∧ Z.length = n ∧
      Z.getD 0 0 = (f.getD 0 cc0).re ∧
      (∀ i, i % 2 = 1 → i < n → Z.getD i 0 = (f.getD ((i + 1) / 2) cc0).re) ∧
      (∀ i, i % 2 = 0 → 2 ≤ i → i < n → Z.getD i 0 = (f.getD (i / 2) cc0).im) := by
  obtain ⟨Z, hZ, hZlen, hZ0, hZodd, hZev⟩ := rfftPack_spec f n junk hn hf
  refine ⟨Z, ?_, hZlen, hZ0, hZodd, hZev⟩
  simp only [rfft1, he, hZ]

/-- Witness for C1 at `n = 4` with a concrete engine spectrum of length 3:
the packed output is `[Re f0, Re f1, Im f1, Re f2]`. -/
theorem rfft_packed_layout_witness :
    rfft1 (fun _ _ => Except.ok ([⟨1, 2⟩, ⟨3, 4⟩, ⟨5, 6⟩] : List CC)) 0 [9] 4 =
      Except.ok [1, 3, 4, 5] ∧
    (1 ≤ 4 ∧ ([⟨1, 2⟩, ⟨3, 4⟩, ⟨5, 6⟩] : List CC).length = 4 / 2 + 1) ∧
    ∃ Z : List ℚ,
      rfft1 (fun _ _ => Except.ok ([⟨1, 2⟩, ⟨3, 4⟩, ⟨5, 6⟩] : List CC)) 0 [9]
        ((4 : ℕ) : ℤ) = Except.ok Z ∧ Z.length = 4 ∧
      Z.getD 0 0 = (([⟨1, 2⟩, ⟨3, 4⟩, ⟨5, 6⟩] : List CC).getD 0 cc0).re ∧
      (∀ i, i % 2 = 1 → i < 4 →
        Z.getD i 0 = (([⟨1, 2⟩, ⟨3, 4⟩, ⟨5, 6⟩] : List CC).getD ((i + 1) / 2) cc0).re) ∧
      (∀ i, i % 2 = 0 → 2 ≤ i → i < 4 →
        Z.getD i 0 = (([⟨1, 2⟩, ⟨3, 4⟩, ⟨5, 6⟩] : List CC).getD (i / 2) cc0).im) :=
  ⟨by decide, ⟨by decide, by decide⟩,
    rfft_packed_layout (fun _ _ => Except.ok [⟨1, 2⟩, ⟨3, 4⟩, ⟨5, 6⟩]) 0 [9] 4
      [⟨1, 2⟩, ⟨3, 4⟩, ⟨5, 6⟩] (by decide) rfl (by decide)⟩

/-- C2: `irfft` builds its half-complex intermediate of length `n//2 + 1`
(zero-filled to start), sets `z[0] = x[0] + 0i`, writes the odd-indexed
packed inputs below `m = min(n, len x)` to `z[1].re .. z[m//2].re` in
order and the even-indexed ones to `z[1].im .. z[(m+1)//2 - 1].im` in
order, and invokes the inverse complex-to-real engine transform on exactly
this intermediate, requesting output length `n`. -/
theorem irfft_halfcomplex_layout (x : List ℚ) (n : ℕ) (hx : 1 ≤ x.length) (hn : 1 ≤ n) :
    ∃ W : List CC, irfftUnpack x (n : ℤ) = Except.ok W ∧ W.length = n / 2 + 1 ∧
      W.getD 0 cc0 = ⟨x.getD 0 0, 0⟩ ∧
      (∀ j, 1 ≤ j → j ≤ min n x.length / 2 →
        (W.getD j cc0).re = x.getD (2 * j - 1) 0) ∧
      (∀ j, 1 ≤ j → j + 1 ≤ (min n x.length + 1) / 2 →
        (W.getD j cc0).im = x.getD (2 * j) 0) ∧
      (∀ e, irfft1 e x (n : ℤ) = e W (n : ℤ)) := by
  obtain ⟨W, hW, hWlen, hW0, hWre, hWim⟩ := irfftUnpack_spec x n hx
  refine ⟨W, hW, hWlen, hW0, ?_, ?_, ?_⟩
  · intro j h1 h2
    rw [hWre j h1 (by omega), if_pos h2]
  · intro j h1 h2
    rw [hWim j h1 (by omega), if_pos h2]
  · intro e
    simp only [irfft1, hW]

/-- Witness for C2 at `n = 5` on the packed input `[1,2,3,4,5]`: the
intermediate spectrum is `[1+0i, 2+3i, 4+5i]` and the engine is invoked on
it with length 5. -/
theorem irfft_halfcomplex_layout_witness :
    irfftUnpack [1, 2, 3, 4, 5] 5 = Except.ok [⟨1, 0⟩, ⟨2, 3⟩, ⟨4, 5⟩] ∧
    ∃ W : List CC, irfftUnpack [1, 2, 3, 4, 5] ((5 : ℕ) : ℤ) = Except.ok W ∧
      W.length = 5 / 2 + 1 ∧
      W.getD 0 cc0 = ⟨([1, 2, 3, 4, 5] : List ℚ).getD 0 0, 0⟩ ∧
      (∀ j, 1 ≤ j → j ≤ min 5 ([1, 2, 3, 4, 5] : List ℚ).length / 2 →
        (W.getD j cc0).re = ([1, 2, 3, 4, 5] : List ℚ).getD (2 * j - 1) 0) ∧
      (∀ j, 1 ≤ j → j + 1 ≤ (min 5 ([1, 2, 3, 4, 5] : List ℚ).length + 1) / 2 →
        (W.getD j cc0).im = ([1, 2, 3, 4, 5] : List ℚ).getD (2 * j) 0) ∧
      (∀ e, irfft1 e [1, 2, 3, 4, 5] ((5 : ℕ) : ℤ) = e W ((5 : ℕ) : ℤ)) :=
  ⟨by decide, irfft_halfcomplex_layout [1, 2, 3, 4, 5] 5 (by decide) (by decide)⟩

/-- C6: when the requested length `n` exceeds the packed input's length,
`irfft` does not raise: the unpacking succeeds, every entry of the
half-complex intermediate beyond the populated range (indices above
`len(x)//2`) is exactly zero, and the call proceeds to the inverse engine
transform with output length `n`. -/
theorem irfft_zero_fill_high_bins (x : List ℚ) (n : ℕ) (hx : 1 ≤ x.length)
    (hlen : x.length < n) :
    ∃ W : List CC, irfftUnpack x (n : ℤ) = Except.ok W ∧ W.length = n / 2 + 1 ∧
      (∀ j, x.length / 2 < j → j < n / 2 + 1 → W.getD j cc0 = cc0) ∧
      (∀ e, irfft1 e x (n : ℤ) = e W (n : ℤ)) := by
  obtain ⟨W, hW, hWlen, hW0, hWre, hWim⟩ := irfftUnpack_spec x n hx
  have hm : min n x.length = x.length := by omega
  refine ⟨W, hW, hWlen, ?_, ?_⟩
  · intro j hj1 hj2
    apply cc_ext
    · rw [hWre j (by omega) hj2, hm, if_neg (by omega)]
      simp [cc0]
    · rw [hWim j (by omega) hj2, hm, if_neg (by omega)]
      simp [cc0]
  · intro e
    simp only [irfft1, hW]

/-- Witness for C6: unpacking `[1,2,3]` with requested length 8 succeeds,
with the three high-frequency bins exactly zero. -/
theorem irfft_zero_fill_high_bins_witness :
    irfftUnpack [1, 2, 3] 8 = Except.ok [⟨1, 0⟩, ⟨2, 3⟩, cc0, cc0, cc0] ∧
    ∃ W : List CC, irfftUnpack [1, 2, 3] ((8 : ℕ) : ℤ) = Except.ok W ∧
      W.length = 8 / 2 + 1 ∧
      (∀ j, ([1, 2, 3] : List ℚ).length / 2 < j → j < 8 / 2 + 1 →
        W.getD j cc0 = cc0) ∧
      (∀ e, irfft1 e [1, 2, 3] ((8 : ℕ) : ℤ) = e W ((8 : ℕ) : ℤ)) :=
  ⟨by decide, irfft_zero_fill_high_bins [1, 2, 3] 8 (by decide) (by decide)⟩

/-- C5 counterexample: the codec itself raises nothing for `n = 0`.  With
an engine that does not fail, `rfft` at `n = 0` returns successfully, so
the `InvalidLength` failure for non-positive lengths cannot be raised by
the codec before the engine call — the codec's outcome at `n <= 0` depends
on the engine. -/
theorem rfft_no_codec_length_check :
    rfft1 (fun _ _ => Except.ok ([] : List CC)) 0 [1] 0 = Except.ok ([] : List ℚ) ∧
    Except.ok ([] : List ℚ) ≠
      (Except.error CodecErr.InvalidLength : Except CodecErr (List ℚ)) :=
  ⟨by decide, by decide⟩

/-- C5 amended: calls with `n <= 0` are not rejected by the codec; the
`InvalidLength` failure originates at the engine entry (`fftEntry`,
modelled from the spec).  `rfft` fails with `InvalidLength` for every
`n <= 0` because its first act is the engine call with the unvalidated
`n`, and `irfft` at `n = 0` completes its packing and then fails with
`InvalidLength` at its engine call. -/
theorem invalid_length_raised_at_engine (coreF : List ℚ → ℤ → List CC)
    (coreI : List CC → ℤ → List ℚ) (junk : ℚ) (x : List ℚ) (n : ℤ)
    (hn : n ≤ 0) (hx : 1 ≤ x.length) :
    rfft1 (fftEntry coreF) junk x n = Except.error CodecErr.InvalidLength ∧
    irfft1 (fftEntry coreI) x 0 = Except.error CodecErr.InvalidLength := by
  constructor
  · simp only [rfft1, fftEntry, if_pos hn]
  · obtain ⟨W, hW, hWrest⟩ := irfftUnpack_spec x 0 hx
    rw [Nat.cast_zero] at hW
    simp [irfft1, hW, fftEntry]

/-- Witness for C5 amended at `n = -1` (rfft) and `n = 0` (irfft). -/
theorem invalid_length_raised_at_engine_witness :
    ((-1 : ℤ) ≤ 0 ∧ 1 ≤ ([1] : List ℚ).length) ∧
    rfft1 (fftEntry (fun _ _ => ([] : List CC))) 0 [1] (-1) =
      Except.error CodecErr.InvalidLength ∧
    irfft1 (fftEntry (fun _ _ => ([] : List ℚ))) [1] 0 =
      Except.error CodecErr.InvalidLength :=
  ⟨⟨by decide, by decide⟩,
    invalid_length_raised_at_engine (fun _ _ => []) (fun _ _ => []) 0 [1] (-1)
      (by decide) (by decide)⟩

/-- C8 counterexample: the round-trip law fails for a requested length
different from the input's length, even for engines satisfying the
structural and inverse contracts at that instance: with the toy engines,
`irfft(rfft([1,2,3], n=2), n=2)` returns `[1,2]`, the input truncated to
length 2, which differs from `[1,2,3]` — a length mismatch no
floating-point tolerance can absorb. -/
theorem rfft_irfft_roundtrip_counterexample :
    toyR2C [1, 2, 3] 2 = Except.ok [⟨1, 0⟩, ⟨2, 0⟩] ∧
    toyC2R [⟨1, 0⟩, ⟨2, 0⟩] 2 = Except.ok [1, 2] ∧
    rfft1 toyR2C 0 [1, 2, 3] 2 = Except.ok [1, 2] ∧
    irfft1 toyC2R [1, 2] 2 = Except.ok [1, 2] ∧
    ([1, 2] : List ℚ) ≠ [1, 2, 3] :=
  ⟨by decide, by decide, by decide, by decide, by decide⟩

/-- C8 amended: the codec round-trips exactly when the requested length
equals the input length along the axis (the default), for both even and
odd lengths.  With the engine contract at this instance — forward spectrum
of length `n//2 + 1` whose DC bin (and, for even `n`, Nyquist bin) has
zero imaginary part, and the inverse transform inverting that spectrum
back to `x` — packing and unpacking are mutually inverse on the engine's
spectrum, so `irfft(rfft(x, n), n) = x` exactly (no tolerance needed in
the exact-arithmetic model). -/
theorem rfft_irfft_roundtrip (eR2C : List ℚ → ℤ → Except CodecErr (List CC))
    (eC2R : List CC → ℤ → Except CodecErr (List ℚ)) (junk : ℚ) (x : List ℚ)
    (n : ℕ) (f : List CC) (hnx : n = x.length) (hx : 1 ≤ x.length)
    (hef : eR2C x (n : ℤ) = Except.ok f) (hflen : f.length = n / 2 + 1)
    (hf0 : (f.getD 0 cc0).im = 0)
    (hfny : n % 2 = 0 → (f.getD (n / 2) cc0).im = 0)
    (hinv : eC2R f (n : ℤ) = Except.ok x) :
    ∃ Z : List ℚ, rfft1 eR2C junk x (n : ℤ) = Except.ok Z ∧
      irfft1 eC2R Z (n : ℤ) = Except.ok x := by
  obtain ⟨Z, hZ, hZlen, hunp⟩ :=
    rfft_pack_unpack_exact f n junk (by omega) hflen hf0 hfny
  refine ⟨Z, ?_, ?_⟩
  · simp only [rfft1, hef, hZ]
  · simp only [irfft1, hunp, hinv]

/-- Witness for C8 amended at `x = [1,2]`, `n = 2`, with concrete engines
satisfying the contract at this instance. -/
theorem rfft_irfft_roundtrip_witness :
    ((2 : ℕ) = ([1, 2] : List ℚ).length ∧
      ([⟨3, 0⟩, ⟨4, 0⟩] : List CC).length = 2 / 2 + 1) ∧
    ∃ Z : List ℚ,
      rfft1 (fun _ _ => Except.ok ([⟨3, 0⟩, ⟨4, 0⟩] : List CC)) 0 [1, 2]
        ((2 : ℕ) : ℤ) = Except.ok Z ∧
      irfft1 (fun _ _ => Except.ok ([1, 2] : List ℚ)) Z ((2 : ℕ) : ℤ) =
        Except.ok [1, 2] :=
  ⟨⟨by decide, by decide⟩,
    rfft_irfft_roundtrip (fun _ _ => Except.ok [⟨3, 0⟩, ⟨4, 0⟩])
      (fun _ _ => Except.ok [1, 2]) 0 [1, 2] 2 [⟨3, 0⟩, ⟨4, 0⟩] (by decide)
      (by decide) rfl (by decide) (by decide) (fun _ => by decide) rfl⟩
